import Mathlib

/-
Verification of the Quacken keyboard firmware core against its design
description.  The firmware (src/firmware/src/{zero.rs, layout.rs, main.rs})
is shallowly embedded: the hardware pin state is an explicit `World` value,
the matrix scanner is an interpreter over that state that also records the
sequence of pin operations it performs, and the periodic tick handler is
modelled as the trace of abstract actions it executes.
-/

namespace Quacken

/-! ## layout.rs constants -/

namespace layout

/-- layout.rs: `pub const COLS: usize = 12`. -/
def COLS : Nat := 12

/-- layout.rs: `pub const ROWS: usize = 4`. -/
def ROWS : Nat := 4

end layout

/-! ## zero.rs: physical matrix dimensions and coordinate mapper -/

/-- zero.rs: `const MATRIX_COLS: usize = 6`. -/
def MATRIX_COLS : Nat := 6

/-- zero.rs: `const MATRIX_ROWS: usize = 8`. -/
def MATRIX_ROWS : Nat := 8

/-- zero.rs `matrix_to_layout`: maps a physical (row, col) of the 8x6
scan matrix onto the logical 4x12 layout grid; the second physical half
(row >= 4) is addressed by the index-minus-4 plus column-mirroring
transform. -/
def matrix_to_layout (row col : Nat) : Nat × Nat :=
  if row ≥ layout.ROWS then
    (row - layout.ROWS, layout.COLS - col - 1)
  else
    (row, col)

/-- Injectivity of the coordinate mapper over the physical grid, phrased on
`Fin` so that it is decidable by exhaustive evaluation. -/
lemma matrix_to_layout_inj_fin :
    ∀ r : Fin 8, ∀ c : Fin 6, ∀ r' : Fin 8, ∀ c' : Fin 6,
      matrix_to_layout r.val c.val = matrix_to_layout r'.val c'.val → r = r' ∧ c = c' := by
  decide

/-- C1: `matrix_to_layout` is a bijection from the physical 8x6 grid onto
the logical 4x12 grid: every physical cell lands inside the 4x12 grid, no
two distinct physical cells share a logical image, every logical cell is
hit, and the second physical half is addressed by the transform
(row - 4, 12 - col - 1). -/
theorem matrix_to_layout_bijection :
    (∀ r < MATRIX_ROWS, ∀ c < MATRIX_COLS,
      (matrix_to_layout r c).1 < layout.ROWS ∧
      (matrix_to_layout r c).2 < layout.COLS) ∧
    (∀ r < MATRIX_ROWS, ∀ c < MATRIX_COLS, ∀ r' < MATRIX_ROWS, ∀ c' < MATRIX_COLS,
      matrix_to_layout r c = matrix_to_layout r' c' → r = r' ∧ c = c') ∧
    (∀ lr < layout.ROWS, ∀ lc < layout.COLS,
      ∃ r, r < MATRIX_ROWS ∧ ∃ c, c < MATRIX_COLS ∧ matrix_to_layout r c = (lr, lc)) ∧
    (∀ r < MATRIX_ROWS, ∀ c < MATRIX_COLS,
      layout.ROWS ≤ r → matrix_to_layout r c = (r - 4, 12 - c - 1)) := by
  refine ⟨by decide, ?_, by decide, by decide⟩
  intro r hr c hc r' hr' c' hc' h
  have h2 := matrix_to_layout_inj_fin ⟨r, hr⟩ ⟨c, hc⟩ ⟨r', hr'⟩ ⟨c', hc'⟩ h
  exact ⟨congrArg Fin.val h2.1, congrArg Fin.val h2.2⟩

/-! ## zero.rs: pin world and the Col2RowMatrix -/

/-- The electrical state seen by the firmware.  `colLevel` gives the
current output level of every column pin (by pin id); `readRow` samples a
row input pin given the current column levels (any electrical behaviour,
and it may fail like `InputPin::is_high`); `setColErr` says whether
driving a column pin to a level fails like `OutputPin::set_low/set_high`. -/
structure World (E : Type) where
  colLevel : Nat → Bool
  readRow : Nat → (Nat → Bool) → Except E Bool
  setColErr : Nat → Bool → Option E

/-- Driving a column output pin: on success the pin's level changes and
nothing else does. -/
def setCol {E : Type} (w : World E) (p : Nat) (b : Bool) : Except E (World E) :=
  match w.setColErr p b with
  | some e => .error e
  | none => .ok { w with colLevel := fun q => if q = p then b else w.colLevel q }

/-- The Boolean value produced by sampling a row pin (meaningful when the
read succeeds). -/
def readVal {E : Type} (w : World E) (p : Nat) (f : Nat → Bool) : Bool :=
  match w.readRow p f with
  | .ok b => b
  | .error _ => false

/-- The pin world never fails: every column drive succeeds and every row
sample succeeds.  This is the `Error = Infallible` instantiation used by
the firmware. -/
def NoFail {E : Type} (w : World E) : Prop :=
  (∀ p b, w.setColErr p b = none) ∧ (∀ p f, w.readRow p f = .ok (readVal w p f))

/-- A pin-operation record, for stating in which order the scan touches
the hardware. -/
inductive Op where
  | setHigh (pin : Nat)
  | setLow (pin : Nat)
  | settle
  | sample (pin : Nat)
deriving DecidableEq, Repr

/-- zero.rs `Col2RowMatrix`: six column output pins and eight row input
pins, stored in scan order (the list entries are pin ids into the
`World`). -/
structure Col2RowMatrix where
  cols : List Nat
  rows : List Nat
deriving DecidableEq, Repr

/-- Rust `slice::rotate_left(mid)` for `mid` no larger than the length:
the elements from `mid` onward move to the front. -/
def rotate_left {α : Type} (l : List α) (mid : Nat) : List α :=
  l.drop mid ++ l.take mid

/-- zero.rs `upside_down`: rotates the column pins left by
`MATRIX_COLS / 2` and the row pins left by `MATRIX_ROWS / 2`. -/
def upside_down (m : Col2RowMatrix) : Col2RowMatrix :=
  { cols := rotate_left m.cols (MATRIX_COLS / 2),
    rows := rotate_left m.rows (MATRIX_ROWS / 2) }

/-- zero.rs `clear` body: sets every column pin low, in order, stopping
at the first failure. -/
def clearCols {E : Type} : List Nat → World E → Except E (World E)
  | [], w => .ok w
  | p :: ps, w =>
    match setCol w p false with
    | .error e => .error e
    | .ok w' => clearCols ps w'

/-- zero.rs `clear`: drives all column pins of the matrix low. -/
def Col2RowMatrix.clear {E : Type} (m : Col2RowMatrix) (w : World E) : Except E (World E) :=
  clearCols m.cols w

/-- zero.rs `new`: builds the matrix from its pin arrays and clears it. -/
def Col2RowMatrix.new {E : Type} (cols rows : List Nat) (w : World E) :
    Except E (Col2RowMatrix × World E) :=
  match clearCols cols w with
  | .error e => .error e
  | .ok w' => .ok (⟨cols, rows⟩, w')

/-- Result of sampling the row pins for one scanned column: outcome,
updated key grid, and the pin-operation trace and column-level snapshots
accumulated so far. -/
structure SampleOut (E : Type) where
  res : Except E Unit
  keys : Nat → Nat → Bool
  trace : List Op
  levels : List (Nat → Bool)

/-- Result of a whole matrix scan: outcome, final pin world, final state
of the caller-supplied delay, the key grid, the pin-operation trace and
the column-level snapshot after each operation. -/
structure ScanOut (E D : Type) where
  res : Except E Unit
  world : World E
  dst : D
  keys : Nat → Nat → Bool
  trace : List Op
  levels : List (Nat → Bool)

/-- zero.rs `keys[layout_row][layout_col] = true`. -/
def gridSet (g : Nat → Nat → Bool) (r c : Nat) : Nat → Nat → Bool :=
  fun r' c' => if r' = r ∧ c' = c then true else g r' c'

/-- Inner loop of zero.rs `get_with_delay`: for column index `ci`, test
each row pin in order; a row reading high marks
`keys[matrix_to_layout(ri, ci)]` pressed.  The world does not change
(row pins are inputs). -/
def sampleRows {E : Type} (w : World E) (ci : Nat) :
    List Nat → Nat → (Nat → Nat → Bool) → List Op → List (Nat → Bool) → SampleOut E
  | [], _, keys, tr, lv => ⟨.ok (), keys, tr, lv⟩
  | p :: ps, ri, keys, tr, lv =>
    match w.readRow p w.colLevel with
    | .error e => ⟨.error e, keys, tr, lv⟩
    | .ok b =>
      sampleRows w ci ps (ri + 1)
        (if b then gridSet keys (matrix_to_layout ri ci).1 (matrix_to_layout ri ci).2 else keys)
        (tr ++ [.sample p]) (lv ++ [w.colLevel])

/-- Outer loop of zero.rs `get_with_delay`: for each column pin in order,
drive it high, run the settle delay, sample all row pins, then drive the
column low again before moving on. -/
def scanCols {E D : Type} (delay : D → D) (rows : List Nat) :
    List Nat → World E → D → Nat → (Nat → Nat → Bool) → List Op → List (Nat → Bool) →
    ScanOut E D
  | [], w, d, _, keys, tr, lv => ⟨.ok (), w, d, keys, tr, lv⟩
  | p :: ps, w, d, ci, keys, tr, lv =>
    match setCol w p true with
    | .error e => ⟨.error e, w, d, keys, tr, lv⟩
    | .ok w1 =>
      let d1 := delay d
      let so := sampleRows w1 ci rows 0 keys (tr ++ [.setHigh p, .settle])
        (lv ++ [w1.colLevel, w1.colLevel])
      match so.res with
      | .error e => ⟨.error e, w1, d1, so.keys, so.trace, so.levels⟩
      | .ok _ =>
        match setCol w1 p false with
        | .error e => ⟨.error e, w1, d1, so.keys, so.trace, so.levels⟩
        | .ok w2 =>
          scanCols delay rows ps w2 d1 (ci + 1) so.keys
            (so.trace ++ [.setLow p]) (so.levels ++ [w2.colLevel])

/-- zero.rs `get_with_delay`: scans the matrix, starting from an empty
key grid, an empty trace and the caller's delay state. -/
def get_with_delay {E D : Type} (m : Col2RowMatrix) (delay : D → D) (w : World E) (d : D) :
    ScanOut E D :=
  scanCols delay m.rows m.cols w d 0 (fun _ _ => false) [] []

/-- zero.rs `get`: scans with a no-op delay closure. -/
def Col2RowMatrix.get {E : Type} (m : Col2RowMatrix) (w : World E) : ScanOut E Unit :=
  get_with_delay m (fun u => u) w ()

/-! Specification helpers used to state what a successful scan does. -/

/-- Column level function with one pin driven high. -/
def highAt (f : Nat → Bool) (p : Nat) : Nat → Bool :=
  fun q => if q = p then true else f q

/-- Expected pressed-bit contributed to logical cell (lr, lc) by sampling
the given row pins (readings given by `f`) while scanning column index
`ci`. -/
def sampleSpec (f : Nat → Bool) : List Nat → Nat → Nat → Nat → Nat → Bool
  | [], _, _, _, _ => false
  | p :: ps, ri, ci, lr, lc =>
    (f p && decide ((lr, lc) = matrix_to_layout ri ci)) || sampleSpec f ps (ri + 1) ci lr lc

/-- Expected pressed-bit at logical cell (lr, lc) accumulated over the
remaining column pins, starting at column index `ci`; each column is
sampled with exactly that column's pin driven high. -/
def colsSpec {E : Type} (w : World E) (rows : List Nat) :
    List Nat → Nat → Nat → Nat → Bool
  | [], _, _, _ => false
  | p :: ps, ci, lr, lc =>
    sampleSpec (fun rp => readVal w rp (highAt w.colLevel p)) rows 0 ci lr lc ||
      colsSpec w rows ps (ci + 1) lr lc

/-- The pin-operation sequence of a full scan: per column, drive high,
settle, sample every row, drive low. -/
def traceSpec (rows : List Nat) : List Nat → List Op
  | [] => []
  | p :: ps => .setHigh p :: .settle :: (rows.map .sample ++ .setLow p :: traceSpec rows ps)

/-- The column-level snapshots of a full scan that starts with all column
pins low: during a column's slice only that column is high, and it is low
again at the slice's end. -/
def levelsSpec {E : Type} (w : World E) (rows : List Nat) : List Nat → List (Nat → Bool)
  | [] => []
  | p :: ps =>
    highAt w.colLevel p :: highAt w.colLevel p ::
      ((rows.map fun _ => highAt w.colLevel p) ++ w.colLevel :: levelsSpec w rows ps)

/-! Lemmas about a failure-free scan. -/

lemma NoFail.update {E : Type} {w : World E} (hw : NoFail w) (f : Nat → Bool) :
    NoFail { w with colLevel := f } :=
  ⟨hw.1, hw.2⟩

lemma setCol_ok {E : Type} (w : World E) (p : Nat) (b : Bool)
    (h : w.setColErr p b = none) :
    setCol w p b = .ok { w with colLevel := fun q => if q = p then b else w.colLevel q } := by
  simp [setCol, h]

lemma setCol_high {E : Type} (w : World E) (p : Nat) (hw : NoFail w) :
    setCol w p true = .ok { w with colLevel := highAt w.colLevel p } :=
  setCol_ok w p true (hw.1 p true)

lemma setCol_restore {E : Type} (w : World E) (p : Nat) (hw : NoFail w)
    (hp : w.colLevel p = false) :
    setCol { w with colLevel := highAt w.colLevel p } p false = .ok w := by
  rw [setCol_ok { w with colLevel := highAt w.colLevel p } p false (hw.1 p false)]
  refine congrArg Except.ok ?_
  obtain ⟨col, rr, se⟩ := w
  simp only at hp ⊢
  congr 1
  funext q
  by_cases hq : q = p
  · subst hq
    simpa using hp.symm
  · simp [highAt, hq]

lemma sampleRows_spec {E : Type} (w : World E) (hw : NoFail w) (ci : Nat) :
    ∀ (rows : List Nat) (ri : Nat) (keys : Nat → Nat → Bool) (tr : List Op)
      (lv : List (Nat → Bool)),
      (sampleRows w ci rows ri keys tr lv).res = .ok () ∧
      (sampleRows w ci rows ri keys tr lv).trace = tr ++ rows.map Op.sample ∧
      (sampleRows w ci rows ri keys tr lv).levels = lv ++ rows.map (fun _ => w.colLevel) ∧
      ∀ lr lc, (sampleRows w ci rows ri keys tr lv).keys lr lc =
        (keys lr lc || sampleSpec (fun p => readVal w p w.colLevel) rows ri ci lr lc) := by
  intro rows
  induction rows with
  | nil => intro ri keys tr lv; simp [sampleRows, sampleSpec]
  | cons p ps ih =>
    intro ri keys tr lv
    have hr := hw.2 p w.colLevel
    simp only [sampleRows, hr]
    obtain ⟨h1, h2, h3, h4⟩ := ih (ri + 1)
      (if readVal w p w.colLevel then
        gridSet keys (matrix_to_layout ri ci).1 (matrix_to_layout ri ci).2
      else keys)
      (tr ++ [.sample p]) (lv ++ [w.colLevel])
    refine ⟨h1, ?_, ?_, ?_⟩
    · rw [h2]; simp
    · rw [h3]; simp
    · intro lr lc
      rw [h4 lr lc]
      simp only [sampleSpec]
      cases hb : readVal w p w.colLevel with
      | false => simp
      | true =>
        by_cases he : (lr, lc) = matrix_to_layout ri ci
        · have : lr = (matrix_to_layout ri ci).1 ∧ lc = (matrix_to_layout ri ci).2 :=
            ⟨congrArg Prod.fst he, congrArg Prod.snd he⟩
          simp [gridSet, this, he]
        · have : ¬(lr = (matrix_to_layout ri ci).1 ∧ lc = (matrix_to_layout ri ci).2) := by
            intro hc
            exact he (Prod.ext hc.1 hc.2)
          simp [gridSet, this, he]

lemma scanCols_spec {E D : Type} (delay : D → D) (rows : List Nat) :
    ∀ (cols : List Nat) (w : World E) (d : D) (ci : Nat) (keys : Nat → Nat → Bool)
      (tr : List Op) (lv : List (Nat → Bool)),
      NoFail w → (∀ p ∈ cols, w.colLevel p = false) →
      (scanCols delay rows cols w d ci keys tr lv).res = .ok () ∧
      (scanCols delay rows cols w d ci keys tr lv).world = w ∧
      (scanCols delay rows cols w d ci keys tr lv).dst = delay^[cols.length] d ∧
      (scanCols delay rows cols w d ci keys tr lv).trace = tr ++ traceSpec rows cols ∧
      (scanCols delay rows cols w d ci keys tr lv).levels = lv ++ levelsSpec w rows cols ∧
      ∀ lr lc, (scanCols delay rows cols w d ci keys tr lv).keys lr lc =
        (keys lr lc || colsSpec w rows cols ci lr lc) := by
  intro cols
  induction cols with
  | nil =>
    intro w d ci keys tr lv hw hlow
    simp [scanCols, traceSpec, levelsSpec, colsSpec]
  | cons p ps ih =>
    intro w d ci keys tr lv hw hlow
    have hw1 : NoFail { w with colLevel := highAt w.colLevel p } := hw.update _
    obtain ⟨s1, s2, s3, s4⟩ := sampleRows_spec { w with colLevel := highAt w.colLevel p } hw1 ci
      rows 0 keys (tr ++ [.setHigh p, .settle])
      (lv ++ [highAt w.colLevel p, highAt w.colLevel p])
    have hres : setCol { w with colLevel := highAt w.colLevel p } p false = .ok w :=
      setCol_restore w p hw (hlow p (List.mem_cons_self p ps))
    simp only [scanCols, setCol_high w p hw, s1, hres]
    obtain ⟨i1, i2, i3, i4, i5, i6⟩ := ih w (delay d) (ci + 1)
      (sampleRows { w with colLevel := highAt w.colLevel p } ci rows 0 keys
        (tr ++ [.setHigh p, .settle]) (lv ++ [highAt w.colLevel p, highAt w.colLevel p])).keys
      ((sampleRows { w with colLevel := highAt w.colLevel p } ci rows 0 keys
        (tr ++ [.setHigh p, .settle]) (lv ++ [highAt w.colLevel p, highAt w.colLevel p])).trace
        ++ [.setLow p])
      ((sampleRows { w with colLevel := highAt w.colLevel p } ci rows 0 keys
        (tr ++ [.setHigh p, .settle]) (lv ++ [highAt w.colLevel p, highAt w.colLevel p])).levels
        ++ [w.colLevel])
      hw (fun q hq => hlow q (List.mem_cons_of_mem p hq))
    refine ⟨i1, i2, ?_, ?_, ?_, ?_⟩
    · rw [i3, List.length_cons, Function.iterate_succ_apply]
    · rw [i4, s2]
      simp [traceSpec, List.append_assoc]
    · rw [i5, s3]
      simp [levelsSpec, List.append_assoc]
    · intro lr lc
      rw [i6 lr lc, s4 lr lc]
      simp only [colsSpec]
      exact (Bool.or_assoc _ _ _).symm ▸ rfl

set_option maxHeartbeats 1000000 in
lemma colsSpec_eval {E : Type} (w : World E)
    (c0 c1 c2 c3 c4 c5 r0 r1 r2 r3 r4 r5 r6 r7 : Nat) :
    ∀ ri < 8, ∀ ci < 6,
      colsSpec w [r0, r1, r2, r3, r4, r5, r6, r7] [c0, c1, c2, c3, c4, c5] 0
          (matrix_to_layout ri ci).1 (matrix_to_layout ri ci).2 =
        readVal w ([r0, r1, r2, r3, r4, r5, r6, r7].getD ri 0)
          (highAt w.colLevel ([c0, c1, c2, c3, c4, c5].getD ci 0)) := by
  intro ri hri ci hci
  interval_cases ri <;> interval_cases ci <;>
    simp [colsSpec, sampleSpec, matrix_to_layout, layout.ROWS, layout.COLS, Prod.mk.injEq,
      -Prod.mk_zero_zero, -Prod.mk_one_one]

/-- C3: a successful failure-free scan starting with all column pins low
visits the column pins in index order — for each column: drive high, run
the settle delay exactly once, sample all row pins (a high row is
recorded at `matrix_to_layout (row index, column index)`), then drive the
column low before the next one; the resulting 4x12 grid is completely
determined by the row readings, and the scan leaves no state behind (the
pin world is restored, so an identical re-scan gives the identical
result). -/
theorem get_with_delay_scan_contract {E D : Type} (delay : D → D) (d : D)
    (m : Col2RowMatrix) (c0 c1 c2 c3 c4 c5 r0 r1 r2 r3 r4 r5 r6 r7 : Nat) (w : World E)
    (hc : m.cols = [c0, c1, c2, c3, c4, c5])
    (hr : m.rows = [r0, r1, r2, r3, r4, r5, r6, r7])
    (hw : NoFail w)
    (hlow : ∀ p ∈ m.cols, w.colLevel p = false) :
    (get_with_delay m delay w d).res = .ok () ∧
    (get_with_delay m delay w d).trace = traceSpec m.rows m.cols ∧
    (get_with_delay m delay w d).dst = delay^[6] d ∧
    (∀ ri < 8, ∀ ci < 6,
      (get_with_delay m delay w d).keys
          (matrix_to_layout ri ci).1 (matrix_to_layout ri ci).2 =
        readVal w (m.rows.getD ri 0) (highAt w.colLevel (m.cols.getD ci 0))) ∧
    (get_with_delay m delay w d).world = w ∧
    get_with_delay m delay ((get_with_delay m delay w d).world) d =
      get_with_delay m delay w d := by
  obtain ⟨cols, rows⟩ := m
  simp only at hc hr
  subst hc hr
  simp only [get_with_delay]
  obtain ⟨h1, h2, h3, h4, h5, h6⟩ := scanCols_spec delay
    [r0, r1, r2, r3, r4, r5, r6, r7] [c0, c1, c2, c3, c4, c5] w d 0
    (fun _ _ => false) [] [] hw hlow
  refine ⟨h1, ?_, ?_, ?_, h2, ?_⟩
  · rw [h4]; rfl
  · rw [h3]; rfl
  · intro ri hri ci hci
    rw [h6 _ _, Bool.false_or]
    exact colsSpec_eval w c0 c1 c2 c3 c4 c5 r0 r1 r2 r3 r4 r5 r6 r7 ri hri ci hci
  · rw [h2]

/-- C3 witness world: every pin reads low, no operation fails. -/
def testWorld : World Unit :=
  { colLevel := fun _ => false
    readRow := fun _ _ => .ok false
    setColErr := fun _ _ => none }

lemma testWorld_NoFail : NoFail testWorld :=
  ⟨fun _ _ => rfl, fun _ _ => rfl⟩

/-- C3 witness. -/
theorem get_with_delay_scan_contract_witness :
    (get_with_delay ⟨[0, 1, 2, 3, 4, 5], [10, 11, 12, 13, 14, 15, 16, 17]⟩
        (fun u : Unit => u) testWorld ()).res = .ok () ∧
    (get_with_delay ⟨[0, 1, 2, 3, 4, 5], [10, 11, 12, 13, 14, 15, 16, 17]⟩
        (fun u : Unit => u) testWorld ()).trace =
      traceSpec [10, 11, 12, 13, 14, 15, 16, 17] [0, 1, 2, 3, 4, 5] ∧
    (get_with_delay ⟨[0, 1, 2, 3, 4, 5], [10, 11, 12, 13, 14, 15, 16, 17]⟩
        (fun u : Unit => u) testWorld ()).dst = (fun u : Unit => u)^[6] () ∧
    (∀ ri < 8, ∀ ci < 6,
      (get_with_delay ⟨[0, 1, 2, 3, 4, 5], [10, 11, 12, 13, 14, 15, 16, 17]⟩
          (fun u : Unit => u) testWorld ()).keys
          (matrix_to_layout ri ci).1 (matrix_to_layout ri ci).2 =
        readVal testWorld ([10, 11, 12, 13, 14, 15, 16, 17].getD ri 0)
          (highAt testWorld.colLevel ([0, 1, 2, 3, 4, 5].getD ci 0))) ∧
    (get_with_delay ⟨[0, 1, 2, 3, 4, 5], [10, 11, 12, 13, 14, 15, 16, 17]⟩
        (fun u : Unit => u) testWorld ()).world = testWorld ∧
    get_with_delay ⟨[0, 1, 2, 3, 4, 5], [10, 11, 12, 13, 14, 15, 16, 17]⟩ (fun u : Unit => u)
        ((get_with_delay ⟨[0, 1, 2, 3, 4, 5], [10, 11, 12, 13, 14, 15, 16, 17]⟩
          (fun u : Unit => u) testWorld ()).world) () =
      get_with_delay ⟨[0, 1, 2, 3, 4, 5], [10, 11, 12, 13, 14, 15, 16, 17]⟩
        (fun u : Unit => u) testWorld () :=
  get_with_delay_scan_contract (fun u : Unit => u) ()
    ⟨[0, 1, 2, 3, 4, 5], [10, 11, 12, 13, 14, 15, 16, 17]⟩
    0 1 2 3 4 5 10 11 12 13 14 15 16 17 testWorld rfl rfl testWorld_NoFail
    (fun _ _ => rfl)

/-- C9: `get` is exactly `get_with_delay` applied to a no-op delay
closure — for every pin world the two return the same outcome, the same
grid, the same pin-operation sequence and the same final world. -/
theorem get_eq_get_with_delay_noop {E : Type} (m : Col2RowMatrix) (w : World E) :
    (m.get w).res = (get_with_delay m (fun u => u) w ()).res ∧
    (∀ lr lc, (m.get w).keys lr lc = (get_with_delay m (fun u => u) w ()).keys lr lc) ∧
    (m.get w).trace = (get_with_delay m (fun u => u) w ()).trace ∧
    (m.get w).levels = (get_with_delay m (fun u => u) w ()).levels ∧
    (m.get w).world = (get_with_delay m (fun u => u) w ()).world :=
  ⟨rfl, fun _ _ => rfl, rfl, rfl, rfl⟩

/-- C9 witness. -/
theorem get_eq_get_with_delay_noop_witness :
    ((⟨[0, 1, 2, 3, 4, 5], [10, 11, 12, 13, 14, 15, 16, 17]⟩ : Col2RowMatrix).get testWorld).res =
      (get_with_delay ⟨[0, 1, 2, 3, 4, 5], [10, 11, 12, 13, 14, 15, 16, 17]⟩
        (fun u => u) testWorld ()).res ∧
    (∀ lr lc,
      ((⟨[0, 1, 2, 3, 4, 5], [10, 11, 12, 13, 14, 15, 16, 17]⟩ : Col2RowMatrix).get
          testWorld).keys lr lc =
        (get_with_delay ⟨[0, 1, 2, 3, 4, 5], [10, 11, 12, 13, 14, 15, 16, 17]⟩
          (fun u => u) testWorld ()).keys lr lc) ∧
    ((⟨[0, 1, 2, 3, 4, 5], [10, 11, 12, 13, 14, 15, 16, 17]⟩ : Col2RowMatrix).get
        testWorld).trace =
      (get_with_delay ⟨[0, 1, 2, 3, 4, 5], [10, 11, 12, 13, 14, 15, 16, 17]⟩
        (fun u => u) testWorld ()).trace ∧
    ((⟨[0, 1, 2, 3, 4, 5], [10, 11, 12, 13, 14, 15, 16, 17]⟩ : Col2RowMatrix).get
        testWorld).levels =
      (get_with_delay ⟨[0, 1, 2, 3, 4, 5], [10, 11, 12, 13, 14, 15, 16, 17]⟩
        (fun u => u) testWorld ()).levels ∧
    ((⟨[0, 1, 2, 3, 4, 5], [10, 11, 12, 13, 14, 15, 16, 17]⟩ : Col2RowMatrix).get
        testWorld).world =
      (get_with_delay ⟨[0, 1, 2, 3, 4, 5], [10, 11, 12, 13, 14, 15, 16, 17]⟩
        (fun u => u) testWorld ()).world :=
  get_eq_get_with_delay_noop ⟨[0, 1, 2, 3, 4, 5], [10, 11, 12, 13, 14, 15, 16, 17]⟩ testWorld

/-- Among the given column pins, at most one is driven high by the level
function `f`. -/
def AtMostOneHigh (cols : List Nat) (f : Nat → Bool) : Prop :=
  ∀ p ∈ cols, ∀ q ∈ cols, f p = true → f q = true → p = q

lemma clearCols_spec {E : Type} :
    ∀ (cols : List Nat) (w : World E), NoFail w →
      ∃ w', clearCols cols w = .ok w' ∧
        ∀ q, w'.colLevel q = if q ∈ cols then false else w.colLevel q := by
  intro cols
  induction cols with
  | nil =>
    intro w hw
    exact ⟨w, rfl, fun q => by simp⟩
  | cons p ps ih =>
    intro w hw
    obtain ⟨w', hrun, hlev⟩ :=
      ih { w with colLevel := fun q => if q = p then false else w.colLevel q } (hw.update _)
    refine ⟨w', ?_, ?_⟩
    · simp only [clearCols, setCol_ok w p false (hw.1 p false)]
      exact hrun
    · intro q
      rw [hlev q]
      by_cases hqs : q ∈ ps
      · simp [hqs]
      · by_cases hqp : q = p
        · subst hqp; simp
        · simp [hqs, hqp, List.mem_cons]

lemma levelsSpec_mem {E : Type} (w : World E) (rows : List Nat) :
    ∀ (cols : List Nat) (f : Nat → Bool), f ∈ levelsSpec w rows cols →
      (∃ p ∈ cols, f = highAt w.colLevel p) ∨ f = w.colLevel := by
  intro cols
  induction cols with
  | nil => intro f hf; simp [levelsSpec] at hf
  | cons p ps ih =>
    intro f hf
    simp only [levelsSpec, List.mem_cons, List.mem_append, List.mem_map] at hf
    rcases hf with hf | hf | ⟨⟨x, _, hx⟩ | hf⟩
    · exact .inl ⟨p, List.mem_cons_self p ps, hf⟩
    · exact .inl ⟨p, List.mem_cons_self p ps, hf⟩
    · exact .inl ⟨p, List.mem_cons_self p ps, hx.symm⟩
    · rcases hf with hf | hf
      · exact .inr hf
      · rcases ih f hf with ⟨q, hq, hfq⟩ | hfl
        · exact .inl ⟨q, List.mem_cons_of_mem p hq, hfq⟩
        · exact .inr hfl

lemma highAt_atMostOne (cols : List Nat) (lev : Nat → Bool)
    (hlow : ∀ p ∈ cols, lev p = false) (p : Nat) :
    AtMostOneHigh cols (highAt lev p) := by
  intro a ha b hb hfa hfb
  by_cases hap : a = p
  · by_cases hbp : b = p
    · rw [hap, hbp]
    · rw [highAt] at hfb
      simp [hbp, hlow b hb] at hfb
  · rw [highAt] at hfa
    simp [hap, hlow a ha] at hfa

/-- C8: every failure-free `Col2RowMatrix` operation leaves the column
output pins driven low — `new` clears them, and a scan that starts with
them low ends with them low; moreover at every moment during such a scan
at most one column pin is high (each column is driven low before the next
is driven high). -/
theorem col2row_cols_low_invariant {E D : Type} (delay : D → D) (d : D)
    (m : Col2RowMatrix) (w : World E) (hw : NoFail w)
    (hlow : ∀ p ∈ m.cols, w.colLevel p = false) :
    (∀ w0 : World E, NoFail w0 →
      ∃ w', Col2RowMatrix.new m.cols m.rows w0 = .ok (m, w') ∧
        ∀ p ∈ m.cols, w'.colLevel p = false) ∧
    ((get_with_delay m delay w d).res = .ok () ∧
      (∀ p ∈ m.cols, (get_with_delay m delay w d).world.colLevel p = false) ∧
      (∀ f ∈ (get_with_delay m delay w d).levels, AtMostOneHigh m.cols f)) ∧
    ((m.get w).res = .ok () ∧
      (∀ p ∈ m.cols, (m.get w).world.colLevel p = false) ∧
      (∀ f ∈ (m.get w).levels, AtMostOneHigh m.cols f)) := by
  obtain ⟨h1, h2, h3, h4, h5, h6⟩ := scanCols_spec delay m.rows m.cols w d 0
    (fun _ _ => false) [] [] hw hlow
  obtain ⟨g1, g2, g3, g4, g5, g6⟩ := scanCols_spec (fun u : Unit => u) m.rows m.cols w ()
    0 (fun _ _ => false) [] [] hw hlow
  have hmem : ∀ f ∈ levelsSpec w m.rows m.cols, AtMostOneHigh m.cols f := by
    intro f hf
    rcases levelsSpec_mem w m.rows m.cols f hf with ⟨p, _, hfp⟩ | hfl
    · rw [hfp]
      exact highAt_atMostOne m.cols w.colLevel hlow p
    · rw [hfl]
      intro a ha b hb hfa hfb
      rw [hlow a ha] at hfa
      exact absurd hfa (by simp)
  refine ⟨?_, ⟨?_, ?_, ?_⟩, ⟨?_, ?_, ?_⟩⟩
  · intro w0 hw0
    obtain ⟨w', hrun, hlev⟩ := clearCols_spec m.cols w0 hw0
    refine ⟨w', ?_, ?_⟩
    · simp only [Col2RowMatrix.new, hrun]
    · intro p hp
      rw [hlev p]
      simp [hp]
  · exact h1
  · intro p hp
    show (scanCols delay m.rows m.cols w d 0 (fun _ _ => false) [] []).world.colLevel p = false
    rw [h2]
    exact hlow p hp
  · intro f hf
    apply hmem
    have := h5
    simp only [get_with_delay] at hf
    rw [this] at hf
    simpa using hf
  · exact g1
  · intro p hp
    show (scanCols (fun u : Unit => u) m.rows m.cols w () 0
      (fun _ _ => false) [] []).world.colLevel p = false
    rw [g2]
    exact hlow p hp
  · intro f hf
    apply hmem
    have := g5
    simp only [Col2RowMatrix.get, get_with_delay] at hf
    rw [this] at hf
    simpa using hf

/-- C8 witness. -/
theorem col2row_cols_low_invariant_witness :
    ((∀ w0 : World Unit, NoFail w0 →
      ∃ w', Col2RowMatrix.new [0, 1, 2, 3, 4, 5] [10, 11, 12, 13, 14, 15, 16, 17] w0 =
          .ok (⟨[0, 1, 2, 3, 4, 5], [10, 11, 12, 13, 14, 15, 16, 17]⟩, w') ∧
        ∀ p ∈ [0, 1, 2, 3, 4, 5], w'.colLevel p = false) ∧
    ((get_with_delay ⟨[0, 1, 2, 3, 4, 5], [10, 11, 12, 13, 14, 15, 16, 17]⟩
        (fun u : Unit => u) testWorld ()).res = .ok () ∧
      (∀ p ∈ [0, 1, 2, 3, 4, 5],
        (get_with_delay ⟨[0, 1, 2, 3, 4, 5], [10, 11, 12, 13, 14, 15, 16, 17]⟩
          (fun u : Unit => u) testWorld ()).world.colLevel p = false) ∧
      (∀ f ∈ (get_with_delay ⟨[0, 1, 2, 3, 4, 5], [10, 11, 12, 13, 14, 15, 16, 17]⟩
          (fun u : Unit => u) testWorld ()).levels, AtMostOneHigh [0, 1, 2, 3, 4, 5] f)) ∧
    (((⟨[0, 1, 2, 3, 4, 5], [10, 11, 12, 13, 14, 15, 16, 17]⟩ : Col2RowMatrix).get
        testWorld).res = .ok () ∧
      (∀ p ∈ [0, 1, 2, 3, 4, 5],
        ((⟨[0, 1, 2, 3, 4, 5], [10, 11, 12, 13, 14, 15, 16, 17]⟩ : Col2RowMatrix).get
          testWorld).world.colLevel p = false) ∧
      (∀ f ∈ ((⟨[0, 1, 2, 3, 4, 5], [10, 11, 12, 13, 14, 15, 16, 17]⟩ : Col2RowMatrix).get
          testWorld).levels, AtMostOneHigh [0, 1, 2, 3, 4, 5] f))) :=
  col2row_cols_low_invariant (fun u : Unit => u) ()
    ⟨[0, 1, 2, 3, 4, 5], [10, 11, 12, 13, 14, 15, 16, 17]⟩ testWorld testWorld_NoFail
    (fun _ _ => rfl)

/-- C6: `upside_down` is a cyclic half-rotation of both line orderings —
on the 6 column pins it rotates left by 3 and on the 8 row pins left by
4, and the matrix holds no other state. -/
theorem upside_down_half_rotation (c0 c1 c2 c3 c4 c5 r0 r1 r2 r3 r4 r5 r6 r7 : Nat) :
    upside_down ⟨[c0, c1, c2, c3, c4, c5], [r0, r1, r2, r3, r4, r5, r6, r7]⟩ =
      ⟨[c3, c4, c5, c0, c1, c2], [r4, r5, r6, r7, r0, r1, r2, r3]⟩ :=
  rfl

/-- C6 witness. -/
theorem upside_down_half_rotation_witness :
    upside_down ⟨[0, 1, 2, 3, 4, 5], [10, 11, 12, 13, 14, 15, 16, 17]⟩ =
      ⟨[3, 4, 5, 0, 1, 2], [14, 15, 16, 17, 10, 11, 12, 13]⟩ :=
  upside_down_half_rotation 0 1 2 3 4 5 10 11 12 13 14 15 16 17

/-- C10: `upside_down` is an involution on the 6-column, 8-row matrix:
applying it twice restores the original pin orderings. -/
theorem upside_down_involution (c0 c1 c2 c3 c4 c5 r0 r1 r2 r3 r4 r5 r6 r7 : Nat) :
    upside_down (upside_down ⟨[c0, c1, c2, c3, c4, c5], [r0, r1, r2, r3, r4, r5, r6, r7]⟩) =
      ⟨[c0, c1, c2, c3, c4, c5], [r0, r1, r2, r3, r4, r5, r6, r7]⟩ :=
  rfl

/-- C10 witness. -/
theorem upside_down_involution_witness :
    upside_down (upside_down ⟨[0, 1, 2, 3, 4, 5], [10, 11, 12, 13, 14, 15, 16, 17]⟩) =
      ⟨[0, 1, 2, 3, 4, 5], [10, 11, 12, 13, 14, 15, 16, 17]⟩ :=
  upside_down_involution 0 1 2 3 4 5 10 11 12 13 14 15 16 17

/-! ## Layout engine (keyberon `Layout`, driven from main.rs) -/

/-- Modelled from the spec: the keyberon layout engine consumed by
main.rs `process_kbd_events` is not part of this repository, so its
action language is taken from the design description (section 4.4 action
kinds; macro step sequencing is not needed by the claims and is
omitted). -/
inductive Action where
  | Transparent
  | NoOp
  | KeyCode (code : Nat)
  | Modifier (code : Nat)
  | LayerHold (layer : Nat)
  | LayerToggle (layer : Nat)
deriving DecidableEq, Repr

/-- A keymap: for each layer id, an action per logical coordinate. -/
def Keymap : Type := Nat → Nat × Nat → Action

/-- Modelled from the spec: the layout engine state — the active layer
stack (most recent on top, base layer 0 implicitly at the bottom) and the
per-coordinate bindings resolved at press time. -/
structure LayoutState where
  stack : List Nat
  held : List ((Nat × Nat) × Action)
deriving DecidableEq, Repr

/-- Top-down resolution through a list of layers, skipping Transparent
entries; an empty list resolves to NoOp. -/
def resolveFrom (km : Keymap) : List Nat → Nat × Nat → Action
  | [], _ => .NoOp
  | l :: ls, c =>
    match km l c with
    | .Transparent => resolveFrom km ls c
    | a => a

/-- Resolve a coordinate against the active layer stack with the base
layer 0 always at the bottom. -/
def resolve (km : Keymap) (s : LayoutState) (c : Nat × Nat) : Action :=
  resolveFrom km (s.stack ++ [0]) c

/-- First stored binding for a coordinate. -/
def lookupHeld : List ((Nat × Nat) × Action) → Nat × Nat → Option Action
  | [], _ => none
  | (c', a) :: t, c => if c' = c then some a else lookupHeld t c

/-- Remove a coordinate's stored bindings. -/
def removeHeld (held : List ((Nat × Nat) × Action)) (c : Nat × Nat) :
    List ((Nat × Nat) × Action) :=
  held.filter (fun e => e.1 ≠ c)

/-- Remove the first occurrence of a layer id from the stack. -/
def eraseFirst : List Nat → Nat → List Nat
  | [], _ => []
  | y :: ys, x => if y = x then ys else y :: eraseFirst ys x

/-- Modelled from the spec: Press at a coordinate resolves the action
against the current stack, stores it as the press-time binding, and
applies its stack effect (LayerHold pushes, LayerToggle flips
membership). -/
def press (km : Keymap) (s : LayoutState) (c : Nat × Nat) : LayoutState :=
  let a := resolve km s c
  { stack :=
      match a with
      | .LayerHold l => l :: s.stack
      | .LayerToggle l => if l ∈ s.stack then eraseFirst s.stack l else l :: s.stack
      | _ => s.stack
    held := (c, a) :: s.held }

/-- Modelled from the spec: Release at a coordinate undoes the
press-time binding, not the action the current stack would resolve —
a LayerHold pops exactly the layer id it pushed (only that occurrence). -/
def release (s : LayoutState) (c : Nat × Nat) : LayoutState :=
  match lookupHeld s.held c with
  | none => s
  | some a =>
    { stack :=
        match a with
        | .LayerHold l => eraseFirst s.stack l
        | _ => s.stack
      held := removeHeld s.held c }

/-- A key event delivered by the debouncer. -/
inductive KEvent where
  | press (c : Nat × Nat)
  | release (c : Nat × Nat)
deriving DecidableEq, Repr

/-- The coordinate an event concerns. -/
def KEvent.coord : KEvent → Nat × Nat
  | .press c => c
  | .release c => c

/-- One layout-engine step. -/
def kstep (km : Keymap) (s : LayoutState) : KEvent → LayoutState
  | .press c => press km s c
  | .release c => release s c

/-- A sequence of layout-engine steps. -/
def ksteps (km : Keymap) (s : LayoutState) (es : List KEvent) : LayoutState :=
  es.foldl (kstep km) s

/-- The key codes currently asserted: those of the held KeyCode
bindings. -/
def asserted (s : LayoutState) : List Nat :=
  s.held.filterMap fun e =>
    match e.2 with
    | .KeyCode k => some k
    | _ => none

lemma lookupHeld_removeHeld (c c' : Nat × Nat) (hne : c' ≠ c) :
    ∀ held : List ((Nat × Nat) × Action),
      lookupHeld (removeHeld held c') c = lookupHeld held c := by
  intro held
  induction held with
  | nil => rfl
  | cons e t ih =>
    obtain ⟨ce, ae⟩ := e
    have hcn : c ≠ c' := Ne.symm hne
    simp only [removeHeld, ne_eq, decide_not, List.filter_cons] at ih ⊢
    by_cases hce : ce = c'
    · subst hce
      simp [lookupHeld, hne, ih]
    · by_cases hcc : ce = c
      · subst hcc
        simp [lookupHeld, hce, hcn]
      · simp [lookupHeld, hce, hcc, ih]

lemma lookupHeld_kstep (km : Keymap) (c : Nat × Nat) (s : LayoutState) (e : KEvent)
    (he : e.coord ≠ c) : lookupHeld (kstep km s e).held c = lookupHeld s.held c := by
  cases e with
  | press c' =>
    simp only [KEvent.coord] at he
    simp [kstep, press, lookupHeld, he]
  | release c' =>
    simp only [KEvent.coord] at he
    simp only [kstep, release]
    cases hl : lookupHeld s.held c' with
    | none => rfl
    | some a => exact lookupHeld_removeHeld c c' he s.held

lemma lookupHeld_ksteps (km : Keymap) (c : Nat × Nat) :
    ∀ (evs : List KEvent) (s : LayoutState), (∀ e ∈ evs, e.coord ≠ c) →
      lookupHeld (ksteps km s evs).held c = lookupHeld s.held c := by
  intro evs
  induction evs with
  | nil => intro s _; rfl
  | cons e es ih =>
    intro s hevs
    have h1 : lookupHeld (kstep km s e).held c = lookupHeld s.held c :=
      lookupHeld_kstep km c s e (hevs e (List.mem_cons_self e es))
    have h2 := ih (kstep km s e) (fun e' he' => hevs e' (List.mem_cons_of_mem e he'))
    exact h2.trans h1

lemma mem_asserted_of_lookup (c : Nat × Nat) (k : Nat) :
    ∀ held : List ((Nat × Nat) × Action),
      lookupHeld held c = some (.KeyCode k) →
      k ∈ held.filterMap (fun e =>
        match e.2 with
        | .KeyCode k' => some k'
        | _ => none) := by
  intro held
  induction held with
  | nil => intro h; simp [lookupHeld] at h
  | cons e t ih =>
    obtain ⟨ce, ae⟩ := e
    intro h
    simp only [lookupHeld] at h
    by_cases hce : ce = c
    · rw [if_pos hce] at h
      obtain rfl : ae = .KeyCode k := by injection h
      simp [List.filterMap_cons]
    · rw [if_neg hce] at h
      have := ih h
      simp only [List.filterMap_cons]
      cases ae <;> simp [this]

/-- C2: the binding resolved at press time governs the release.  After a
press at coordinate c and any sequence of further events at other
coordinates (which may change the layer stack arbitrarily), releasing c
pops exactly the layer that this press pushed when the press-time action
was a LayerHold — not whatever is on top of the stack at release time —
and a key code resolved at press time (possibly through a layer that has
since been deactivated) is still asserted until c's own release. -/
theorem press_time_binding_authoritative (km : Keymap) (s : LayoutState) (c : Nat × Nat)
    (evs : List KEvent) (hevs : ∀ e ∈ evs, e.coord ≠ c) :
    (∀ l, resolve km s c = .LayerHold l →
      (press km s c).stack = l :: s.stack ∧
      release (ksteps km (press km s c) evs) c =
        { stack := eraseFirst (ksteps km (press km s c) evs).stack l,
          held := removeHeld (ksteps km (press km s c) evs).held c }) ∧
    (∀ k, resolve km s c = .KeyCode k →
      k ∈ asserted (ksteps km (press km s c) evs)) := by
  have hl : lookupHeld (press km s c).held c = some (resolve km s c) := by
    simp [press, lookupHeld]
  have hpres : lookupHeld (ksteps km (press km s c) evs).held c = some (resolve km s c) :=
    (lookupHeld_ksteps km c evs (press km s c) hevs).trans hl
  constructor
  · intro l hres
    constructor
    · simp [press, hres]
    · rw [hres] at hpres
      simp [release, hpres]
  · intro k hres
    rw [hres] at hpres
    exact mem_asserted_of_lookup c k (ksteps km (press km s c) evs).held hpres

/-- C2 witness keymap: layer 1 holds a Z key at (0, 1); the base layer
has a LayerHold(1) at (0, 0) and is otherwise transparent-free. -/
def testKeymap : Keymap := fun l c =>
  if l = 0 then
    if c = (0, 0) then .LayerHold 1 else .NoOp
  else if l = 1 then
    if c = (0, 1) then .KeyCode 42 else .Transparent
  else .NoOp

/-- C2 witness. -/
theorem press_time_binding_authoritative_witness :
    (∀ l, resolve testKeymap ⟨[], []⟩ (0, 0) = .LayerHold l →
      (press testKeymap ⟨[], []⟩ (0, 0)).stack = l :: ([] : List Nat) ∧
      release (ksteps testKeymap (press testKeymap ⟨[], []⟩ (0, 0)) [.press (0, 1)]) (0, 0) =
        { stack :=
            eraseFirst
              (ksteps testKeymap (press testKeymap ⟨[], []⟩ (0, 0)) [.press (0, 1)]).stack l,
          held :=
            removeHeld
              (ksteps testKeymap (press testKeymap ⟨[], []⟩ (0, 0)) [.press (0, 1)]).held
              (0, 0) }) ∧
    (∀ k, resolve testKeymap ⟨[], []⟩ (0, 0) = .KeyCode k →
      k ∈ asserted (ksteps testKeymap (press testKeymap ⟨[], []⟩ (0, 0)) [.press (0, 1)])) :=
  press_time_binding_authoritative testKeymap ⟨[], []⟩ (0, 0) [.press (0, 1)]
    (by decide)

/-! ## main.rs: the periodic tick handler -/

/-- usb_device `UsbDeviceState`. -/
inductive UsbDeviceState where
  | Default
  | Addressed
  | Configured
  | Suspend
deriving DecidableEq, Repr

/-- USB-side state the tick handler interacts with: the device state and
the report stored by the last accepted `set_keyboard_report`. -/
structure UsbSt where
  state : UsbDeviceState
  lastReport : List Nat
deriving DecidableEq, Repr

/-- Modelled from the spec: keyberon's `set_keyboard_report` (external
crate) stores the new report and reports whether it differs from the
previously set one. -/
def set_keyboard_report (u : UsbSt) (r : List Nat) : Bool × UsbSt :=
  if r = u.lastReport then (false, u) else (true, { u with lastReport := r })

/-- main.rs `while let Ok(0) = write(..) {}`: the number of write calls
issued within `fuel` loop iterations, where `ws n` is the outcome the
peripheral gives the n-th call (`.ok 0` meaning busy, zero bytes
accepted). -/
def writeLoop (ws : Nat → Except Unit Nat) : Nat → Nat → Nat
  | _, 0 => 0
  | i, fuel + 1 =>
    1 + (match ws i with
      | .ok 0 => writeLoop ws (i + 1) fuel
      | _ => 0)

/-- Tail of main.rs `process_kbd_events`: number of USB write calls one
tick issues — none unless the device is configured, none if setting the
assembled report reports it unchanged, otherwise the busy-retry loop. -/
def tickUsbWrites (u : UsbSt) (r : List Nat) (ws : Nat → Except Unit Nat) (fuel : Nat) : Nat :=
  if u.state = .Configured then
    if (set_keyboard_report u r).1 then writeLoop ws 0 fuel else 0
  else 0

lemma writeLoop_lower (ws : Nat → Except Unit Nat) :
    ∀ (n fuel i : Nat), n < fuel → (∀ j < n, ws (i + j) = .ok 0) →
      n + 1 ≤ writeLoop ws i fuel := by
  intro n
  induction n with
  | zero =>
    intro fuel i hf _
    obtain ⟨f, rfl⟩ : ∃ f, fuel = f + 1 := ⟨fuel - 1, by omega⟩
    simp only [writeLoop]
    omega
  | succ n ih =>
    intro fuel i hf h
    obtain ⟨f, rfl⟩ : ∃ f, fuel = f + 1 := ⟨fuel - 1, by omega⟩
    have h0 : ws i = .ok 0 := by simpa using h 0 (by omega)
    simp only [writeLoop, h0]
    have hr := ih f (i + 1) (by omega) (fun j hj => by
      have := h (j + 1) (by omega)
      rw [show i + 1 + j = i + (j + 1) by omega]
      exact this)
    omega

/-- C4: a USB write is attempted on a tick exactly when the device is
configured and the newly assembled report differs from the previously
set one; and while the peripheral answers busy (Ok(0), zero bytes
accepted) the write is retried without any timeout: k consecutive busy
answers force at least k + 1 write calls. -/
theorem usb_write_iff_configured_and_changed (u : UsbSt) (r : List Nat)
    (ws : Nat → Except Unit Nat) (fuel : Nat) (hfuel : 1 ≤ fuel) :
    (1 ≤ tickUsbWrites u r ws fuel ↔ u.state = .Configured ∧ r ≠ u.lastReport) ∧
    (∀ n, n < fuel → (∀ j < n, ws j = .ok 0) → u.state = .Configured →
      r ≠ u.lastReport → n + 1 ≤ tickUsbWrites u r ws fuel) := by
  constructor
  · constructor
    · intro h
      by_cases hc : u.state = .Configured
      · refine ⟨hc, ?_⟩
        intro hr
        rw [tickUsbWrites, if_pos hc] at h
        simp [set_keyboard_report, hr] at h
      · rw [tickUsbWrites, if_neg hc] at h
        omega
    · rintro ⟨hc, hr⟩
      rw [tickUsbWrites, if_pos hc]
      have hset : (set_keyboard_report u r).1 = true := by
        simp [set_keyboard_report, hr]
      rw [hset, if_pos rfl]
      have := writeLoop_lower ws 0 fuel 0 hfuel (by omega)
      omega
  · intro n hn hbusy hc hr
    rw [tickUsbWrites, if_pos hc]
    have hset : (set_keyboard_report u r).1 = true := by
      simp [set_keyboard_report, hr]
    rw [hset, if_pos rfl]
    exact writeLoop_lower ws n fuel 0 hn (fun j hj => by simpa using hbusy j hj)

/-- C4 witness. -/
theorem usb_write_iff_configured_and_changed_witness :
    (1 ≤ 3) ∧
    ((1 ≤ tickUsbWrites ⟨.Configured, []⟩ [5] (fun _ => .ok 0) 3 ↔
      UsbSt.state ⟨.Configured, []⟩ = .Configured ∧ [5] ≠ UsbSt.lastReport ⟨.Configured, []⟩) ∧
    (∀ n, n < 3 → (∀ j < n, (fun _ => (.ok 0 : Except Unit Nat)) j = .ok 0) →
      UsbSt.state ⟨.Configured, []⟩ = .Configured →
      [5] ≠ UsbSt.lastReport ⟨.Configured, []⟩ →
      n + 1 ≤ tickUsbWrites ⟨.Configured, []⟩ [5] (fun _ => .ok 0) 3)) := by
  exact ⟨by decide,
    usb_write_iff_configured_and_changed ⟨.Configured, []⟩ [5] (fun _ => .ok 0) 3 (by decide)⟩

/-- Abstract actions performed by the RTIC handlers, in execution
order. -/
inductive TickAct where
  | clearInterrupt
  | scheduleAlarm
  | enableInterrupt
  | panicked
  | feedWatchdog
  | scanMatrix
  | debounceEvents
  | layoutEvent
  | layoutTick
  | readUsbState
  | collectReport
  | setReport
  | usbWrite
deriving DecidableEq, Repr

/-- main.rs `process_kbd_events` as the trace of actions it performs:
clear the alarm interrupt, re-schedule it (a failure of which panics via
`expect`, ending the trace), re-enable its interrupt, feed the watchdog,
scan the matrix, debounce, feed each debounced event to the layout, tick
the layout, read the USB device state and — only when configured —
collect the report, set it on the class, and issue the busy-retry write
calls when it changed. -/
def process_kbd_events (schedFails : Bool) (events : List KEvent) (u : UsbSt)
    (r : List Nat) (ws : Nat → Except Unit Nat) (fuel : Nat) : List TickAct :=
  .clearInterrupt :: .scheduleAlarm ::
    (if schedFails then [.panicked]
     else .enableInterrupt :: .feedWatchdog :: .scanMatrix :: .debounceEvents ::
       (List.replicate events.length .layoutEvent ++ .layoutTick :: .readUsbState ::
         (if u.state = .Configured then
           .collectReport :: .setReport ::
             (if (set_keyboard_report u r).1 then
               List.replicate (writeLoop ws 0 fuel) .usbWrite
             else [])
         else [])))

/-- main.rs `init`, restricted to the alarm-arming steps the claims are
about: `alarm.schedule(..).expect(..)` (panicking and halting on
failure, which ends the trace) followed by `alarm.enable_interrupt()`. -/
def init (schedFails : Bool) : List TickAct :=
  .scheduleAlarm :: (if schedFails then [.panicked] else [.enableInterrupt])

/-- C5: on every tick (with the alarm re-arming succeeding) the handler
first clears the alarm interrupt and re-schedules the alarm, then feeds
the watchdog, and only then runs the pipeline — matrix scan, debounce,
one layout-engine step per debounced event, the layout tick, and (when
the device is configured) report assembly — strictly in that order, with
nothing but report-transmission actions after the layout tick. -/
theorem tick_ordering (events : List KEvent) (u : UsbSt) (r : List Nat)
    (ws : Nat → Except Unit Nat) (fuel : Nat) :
    ∃ tail,
      process_kbd_events false events u r ws fuel =
        [.clearInterrupt, .scheduleAlarm, .enableInterrupt, .feedWatchdog, .scanMatrix,
          .debounceEvents] ++ List.replicate events.length .layoutEvent ++
          [.layoutTick, .readUsbState] ++ tail ∧
      (u.state = .Configured → tail.take 2 = [.collectReport, .setReport]) ∧
      (u.state ≠ .Configured → tail = []) ∧
      (∀ a ∈ tail, a = .collectReport ∨ a = .setReport ∨ a = .usbWrite) := by
  refine ⟨if u.state = .Configured then
      .collectReport :: .setReport ::
        (if (set_keyboard_report u r).1 then
          List.replicate (writeLoop ws 0 fuel) .usbWrite
        else [])
    else [], ?_, ?_, ?_, ?_⟩
  · simp [process_kbd_events]
  · intro hc
    rw [if_pos hc]
    rfl
  · intro hc
    rw [if_neg hc]
  · intro a ha
    by_cases hc : u.state = .Configured
    · rw [if_pos hc] at ha
      simp only [List.mem_cons] at ha
      rcases ha with rfl | rfl | ha
      · exact .inl rfl
      · exact .inr (.inl rfl)
      · by_cases hs : (set_keyboard_report u r).1
        · rw [if_pos hs] at ha
          exact .inr (.inr (List.eq_of_mem_replicate ha))
        · rw [if_neg hs] at ha
          simp at ha
    · rw [if_neg hc] at ha
      simp at ha

/-- C5 witness. -/
theorem tick_ordering_witness :
    ∃ tail,
      process_kbd_events false [] ⟨.Configured, []⟩ [5] (fun _ => .error ()) 1 =
        [.clearInterrupt, .scheduleAlarm, .enableInterrupt, .feedWatchdog, .scanMatrix,
          .debounceEvents] ++ List.replicate ([] : List KEvent).length .layoutEvent ++
          [.layoutTick, .readUsbState] ++ tail ∧
      (UsbSt.state ⟨.Configured, []⟩ = .Configured → tail.take 2 = [.collectReport, .setReport]) ∧
      (UsbSt.state ⟨.Configured, []⟩ ≠ .Configured → tail = []) ∧
      (∀ a ∈ tail, a = .collectReport ∨ a = .setReport ∨ a = .usbWrite) :=
  tick_ordering [] ⟨.Configured, []⟩ [5] (fun _ => .error ()) 1

/-- C7: when arming the periodic scan alarm fails, the firmware panics
and halts, both at boot in `init` and when re-arming at the start of a
tick: the trace ends at the panic (after nothing but the interrupt
clear during a tick), so no watchdog feed, no pipeline work and no
recovery happen, and no error value is returned anywhere. -/
theorem schedule_failure_panics (events : List KEvent) (u : UsbSt) (r : List Nat)
    (ws : Nat → Except Unit Nat) (fuel : Nat) :
    init true = [.scheduleAlarm, .panicked] ∧
    process_kbd_events true events u r ws fuel =
      [.clearInterrupt, .scheduleAlarm, .panicked] :=
  ⟨rfl, rfl⟩

/-- C7 witness. -/
theorem schedule_failure_panics_witness :
    init true = [.scheduleAlarm, .panicked] ∧
    process_kbd_events true [] ⟨.Configured, []⟩ [] (fun _ => .ok 0) 1 =
      [.clearInterrupt, .scheduleAlarm, .panicked] :=
  schedule_failure_panics [] ⟨.Configured, []⟩ [] (fun _ => .ok 0) 1

end Quacken
